import Mathlib

/-!
Shallow embedding of the emotion analyzer of The-Fifth-Season
(src/emotion_analyzer/analyzer.py).  Raw scores are exact rationals;
smoothing, normalization and entropy are over the reals.  The lexicon
(EMOTION_CATEGORIES) and the stopword set come from a configuration module
that is not part of the sources, so they are parameters of every function;
the Chinese word segmenter (jieba) and the polarity scorer (TextBlob) are
external collaborators modelled as function parameters, the polarity scorer
returning none when it raises.
-/

namespace FifthSeason

/-- Association map from emotion category to accumulated score, kept in
insertion order, mirroring a Python defaultdict of floats. -/
abbrev ScoreMap := List (String × ℚ)

/-- Lexicon shape of EMOTION_CATEGORIES: category name to keyword list. -/
abbrev Lexicon := List (String × List String)

/-- Polarity scorer: joined text to (polarity, subjectivity), none models the
scorer raising. -/
abbrev Sentiment := String → Option (ℚ × ℚ)

/-- Adding v at key k, inserting at the end on first touch (the defaultdict
`scores[k] += v` idiom of the analyzer). -/
def addScore : ScoreMap → String → ℚ → ScoreMap
  | [], k, v => [(k, v)]
  | p :: t, k, v => if p.1 = k then (p.1, p.2 + v) :: t else p :: addScore t k v

/-- Folding a list of (key, value) contributions into the accumulator. -/
def addScores (m : ScoreMap) (l : List (String × ℚ)) : ScoreMap :=
  l.foldl (fun acc p => addScore acc p.1 p.2) m

/-- Sum of the values of the map (Python sum of the dict values). -/
def sumQ (m : ScoreMap) : ℚ := (m.map (fun p => p.2)).sum

/-- Boolean test that the first character list starts the second. -/
def listPrefixOf : List Char → List Char → Bool
  | [], _ => true
  | _ :: _, [] => false
  | a :: as, b :: bs => a == b && listPrefixOf as bs

/-- Boolean test that the first character list occurs inside the second. -/
def listInfixOf : List Char → List Char → Bool
  | n, [] => n.isEmpty
  | n, c :: t => listPrefixOf n (c :: t) || listInfixOf n t

/-- Python substring test `needle in hay` on strings. -/
def strIn (needle hay : String) : Bool := listInfixOf needle.toList hay.toList

/-- Category the dict built by _build_emotion_dict assigns to w: the last
category of the lexicon whose keyword list contains w, since later insertions
overwrite earlier ones. -/
def emotionDictLookup (L : Lexicon) (w : String) : Option String :=
  L.foldl (fun acc p => if w ∈ p.2 then some p.1 else acc) none

/-- Semantic rules of _semantic_emotion_analysis (analyzer lines 169-178). -/
def semanticRules : List (String × List String) :=
  [("思念", ["过去", "从前", "以前", "当年", "那时", "曾经", "记得", "还记得"]),
   ("失落", ["不再", "失去", "没有了", "结束", "完了", "破碎", "散了"]),
   ("期待", ["未来", "明天", "将来", "希冀", "但愿", "如果", "要是"]),
   ("无助", ["不知道", "怎么办", "不懂", "不会", "不能", "无法"]),
   ("温暖", ["家", "妈妈", "爸爸", "朋友", "陪伴", "一起", "拥抱"]),
   ("忧伤", ["眼泪", "哭", "痛", "伤", "苦", "难受", "心碎"]),
   ("喜悦", ["笑", "哈哈", "开心", "棒", "好", "赞", "太好了"]),
   ("平静", ["静", "安", "稳", "缓", "慢", "轻", "淡"])]

/-- Direct match contribution of one word (analyzer lines 77-82): weight 1.5
to the dict category of the word, when there is one. -/
def exactContribWord (L : Lexicon) (w : String) : Option (String × ℚ) :=
  (emotionDictLookup L w).map (fun e => (e, 3 / 2))

/-- Direct match contributions of a word list; its length is the
direct_matches counter. -/
def exactList (L : Lexicon) (words : List String) : List (String × ℚ) :=
  words.filterMap (exactContribWord L)

/-- Fuzzy match contributions of one word (analyzer lines 84-96): for every
keyword of length at least 2, weight 0.8 when the keyword is contained in the
word within the length tolerance, else weight 0.6 when the word is contained
in the keyword within the length tolerance. -/
def fuzzyContribsWord (L : Lexicon) (w : String) : List (String × ℚ) :=
  L.flatMap (fun p => p.2.filterMap (fun k =>
    if 2 ≤ k.length then
      if strIn k w = true ∧ w.length ≤ k.length + 2 then some (p.1, 4 / 5)
      else if strIn w k = true ∧ k.length ≤ w.length + 2 then some (p.1, 3 / 5)
      else none
    else none))

/-- Fuzzy match contributions of a word list; its length is the fuzzy_matches
counter. -/
def fuzzyList (L : Lexicon) (words : List String) : List (String × ℚ) :=
  words.flatMap (fuzzyContribsWord L)

/-- Semantic rule contributions of one word (analyzer lines 181-185): weight
0.4 whenever the trigger is contained in the word or the word in the
trigger. -/
def semanticContribsWord (w : String) : List (String × ℚ) :=
  semanticRules.flatMap (fun p => p.2.filterMap (fun sw =>
    if strIn sw w = true ∨ strIn w sw = true then some (p.1, 2 / 5) else none))

/-- Semantic score dict returned by _semantic_emotion_analysis. -/
def semanticScores (words : List String) : ScoreMap :=
  addScores [] (words.flatMap semanticContribsWord)

/-- Accumulator after the exact, fuzzy and semantic passes
(analyzer lines 76-101). -/
def scoresAfterPass3 (L : Lexicon) (words : List String) : ScoreMap :=
  addScores (addScores (addScores [] (exactList L words)) (fuzzyList L words))
    (semanticScores words)

/-- total_matches of analyzer line 105: direct hits plus fuzzy hits plus the
sum of the semantic score values. -/
def totalMatches (L : Lexicon) (words : List String) : ℚ :=
  ((exactList L words).length : ℚ) + ((fuzzyList L words).length : ℚ) +
    sumQ (semanticScores words)

/-- TextBlob driven conditional additions (analyzer lines 113-123). -/
def polarityBlock (m : ScoreMap) (tm p s : ℚ) : ScoreMap :=
  if tm < 2 ∧ 3 / 10 < s then
    if 1 / 5 < p then addScore (addScore m "喜悦" (p * (3 / 2))) "温暖" (p * 1)
    else if p < -(1 / 5) then
      addScore (addScore m "忧伤" (|p| * (3 / 2))) "失落" (|p| * 1)
    else if |p| ≤ 1 / 10 ∧ 1 / 2 < s then
      addScore (addScore m "思念" (3 / 10)) "平静" (1 / 5)
    else m
  else m

/-- Zero sum guarantee at the end of the try block (analyzer lines 126-130). -/
def zeroGuard (m : ScoreMap) (s : ℚ) : ScoreMap :=
  if sumQ m = 0 then
    (if 3 / 10 < s then addScore m "平静" (3 / 10) else addScore m "平静" (1 / 10))
  else m

/-- Fourth pass (analyzer lines 107-134): the try block when the scorer
answers, the except branch when it raises. -/
def pass4 (o : Option (ℚ × ℚ)) (m : ScoreMap) (tm : ℚ) : ScoreMap :=
  match o with
  | some (p, s) => zeroGuard (polarityBlock m tm p s) s
  | none => if sumQ m = 0 then addScore m "平静" (1 / 10) else m

/-- Raw accumulator of calculate_emotion_weights before normalization
(analyzer lines 70-134), with the early return on an empty word list. -/
def rawScores (L : Lexicon) (sent : Sentiment) (words : List String) :
    ScoreMap :=
  if words = [] then []
  else pass4 (sent (String.intercalate " " words)) (scoresAfterPass3 L words)
    (totalMatches L words)

/-- Sum of the values of a real valued weight map. -/
def sumR (l : List (String × ℝ)) : ℝ := (l.map (fun p => p.2)).sum

/-- smoothed_scores of analyzer lines 140-144: square root of every strictly
positive raw score. -/
noncomputable def smoothed (raw : ScoreMap) : List (String × ℝ) :=
  (raw.filter (fun p => decide (0 < p.2))).map
    (fun p => (p.1, Real.sqrt (p.2 : ℝ)))

/-- smoothed_total of analyzer line 147. -/
noncomputable def smoothedTotal (raw : ScoreMap) : ℝ := sumR (smoothed raw)

/-- Square root smoothing and normalization (analyzer lines 136-154): when a
guard fails the raw scores are returned unchanged. -/
noncomputable def normalizeScores (raw : ScoreMap) : List (String × ℝ) :=
  if 0 < sumQ raw then
    if 0 < smoothedTotal raw then
      (smoothed raw).map (fun p => (p.1, p.2 / smoothedTotal raw))
    else raw.map (fun p => (p.1, (p.2 : ℝ)))
  else raw.map (fun p => (p.1, (p.2 : ℝ)))

/-- calculate_emotion_weights (analyzer lines 60-154). -/
noncomputable def calculate_emotion_weights (L : Lexicon) (sent : Sentiment)
    (words : List String) : List (String × ℝ) :=
  normalizeScores (rawScores L sent words)

/-- Characters kept by the cleaning step of preprocess_text (analyzer
line 47): CJK ideographs, ASCII letters, ASCII digits, whitespace. -/
def cleanChar (c : Char) : Bool :=
  decide ((0x4e00 ≤ c.toNat ∧ c.toNat ≤ 0x9fa5) ∨ (65 ≤ c.toNat ∧ c.toNat ≤ 90) ∨
    (97 ≤ c.toNat ∧ c.toNat ≤ 122) ∨ (48 ≤ c.toNat ∧ c.toNat ≤ 57) ∨
    c.isWhitespace = true)

/-- Python str.strip: remove leading and trailing whitespace. -/
def stripStr (s : String) : String :=
  String.mk (((s.toList.dropWhile Char.isWhitespace).reverse.dropWhile
    Char.isWhitespace).reverse)

/-- preprocess_text (analyzer lines 36-58), the segmenter as a parameter:
clean, cut, strip each token, drop empty, short and stopword tokens. -/
def preprocess_text (stop : List String) (cut : String → List String)
    (text : String) : List String :=
  let cleaned := String.mk (text.toList.filter cleanChar)
  ((cut cleaned).map stripStr).filter
    (fun w => decide (w ≠ "" ∧ 1 < w.length ∧ w ∉ stop))

/-- Attribution map of extract_emotion_keywords: category to token list, in
insertion order. -/
abbrev AttrMap := List (String × List String)

/-- Reading the token list of a category, empty when absent. -/
def attrGet : AttrMap → String → List String
  | [], _ => []
  | p :: t, k => if p.1 = k then p.2 else attrGet t k

/-- Appending a token to the list of a category, creating the entry at the
end on first touch. -/
def attrAppend : AttrMap → String → String → AttrMap
  | [], k, w => [(k, [w])]
  | p :: t, k, w =>
      if p.1 = k then (p.1, p.2 ++ [w]) :: t else p :: attrAppend t k w

/-- Appending a token to a category unless it is already recorded there
(analyzer lines 211-212). -/
def condAppend (m : AttrMap) (c w : String) : AttrMap :=
  if w ∈ attrGet m c then m else attrAppend m c w

/-- Processing one word of extract_emotion_keywords (analyzer lines 201-212):
the direct branch appends unconditionally, the containment branch appends
with a duplicate check, with no length gate and no length tolerance. -/
def extractStep (L : Lexicon) (m : AttrMap) (w : String) : AttrMap :=
  let m1 := match emotionDictLookup L w with
    | some e => attrAppend m e w
    | none => m
  L.foldl (fun acc p => p.2.foldl (fun acc2 k =>
    if strIn k w = true ∨ strIn w k = true then condAppend acc2 p.1 w
    else acc2) acc) m1

/-- extract_emotion_keywords (analyzer lines 189-214). -/
def extract_emotion_keywords (L : Lexicon) (words : List String) : AttrMap :=
  words.foldl (extractStep L) []

/-- Python max over the weight items keyed by value: the first key attaining
the maximal weight (analyzer line 246). -/
noncomputable def listArgmax (l : List (String × ℝ)) : Option String :=
  match l with
  | [] => none
  | h :: t => some (t.foldl (fun best q => if best.2 < q.2 then q else best) h).1

/-- Strictly positive values of the weight map, in order (analyzer
line 274). -/
noncomputable def positiveWeights (w : List (String × ℝ)) : List ℝ :=
  (w.map (fun p => p.2)).filter (fun x => decide (0 < x))

/-- Shannon entropy based diversity of _calculate_emotion_diversity
(analyzer lines 260-286). -/
noncomputable def emotionDiversity (w : List (String × ℝ)) : ℝ :=
  if w = [] then 0
  else
    if (positiveWeights w).length ≤ 1 then 0
    else
      let entropy := -(((positiveWeights w).map (fun x => x * Real.logb 2 x)).sum)
      let maxEntropy := Real.logb 2 ((positiveWeights w).length : ℝ)
      if 0 < maxEntropy then entropy / maxEntropy else 0

/-- Result record of analyze_text. -/
structure AnalysisResult where
  emotion_weights : List (String × ℝ)
  emotion_keywords : AttrMap
  dominant_emotion : Option String
  emotion_diversity : ℝ
  processed_words : List String
  word_count : Nat

/-- analyze_text (analyzer lines 216-258): early empty result on empty or
whitespace only input, otherwise the full pipeline. -/
noncomputable def analyze_text (L : Lexicon) (stop : List String)
    (sent : Sentiment) (cut : String → List String) (text : String) :
    AnalysisResult :=
  if stripStr text = "" then ⟨[], [], none, 0, [], 0⟩
  else
    let words := preprocess_text stop cut text
    let weights := calculate_emotion_weights L sent words
    ⟨weights, extract_emotion_keywords L words, listArgmax weights,
      emotionDiversity weights, words, words.length⟩

/-! Helper lemmas: every entry of the accumulator is strictly positive, and
consequences for its value sum. -/

/-- Every value of the score map is strictly positive. -/
def PosMap (m : ScoreMap) : Prop := ∀ p ∈ m, 0 < p.2

theorem posMap_nil : PosMap [] := by
  intro p hp
  cases hp

theorem addScores_nil (m : ScoreMap) : addScores m [] = m := rfl

theorem addScores_cons (m : ScoreMap) (p : String × ℚ) (t : List (String × ℚ)) :
    addScores m (p :: t) = addScores (addScore m p.1 p.2) t := rfl

theorem sumQ_cons (p : String × ℚ) (t : ScoreMap) :
    sumQ (p :: t) = p.2 + sumQ t := by
  simp [sumQ]

theorem sumQ_addScore (k : String) (v : ℚ) :
    ∀ m : ScoreMap, sumQ (addScore m k v) = sumQ m + v := by
  intro m
  induction m with
  | nil => simp [addScore, sumQ]
  | cons q t ih =>
      by_cases h : q.1 = k
      · simp only [addScore, if_pos h, sumQ_cons]
        ring
      · simp only [addScore, if_neg h, sumQ_cons, ih]
        ring

theorem posMap_addScore {k : String} {v : ℚ} (hv : 0 < v) :
    ∀ m : ScoreMap, PosMap m → PosMap (addScore m k v) := by
  intro m
  induction m with
  | nil =>
      intro _ p hp
      simp only [addScore, List.mem_singleton] at hp
      simp [hp, hv]
  | cons q t ih =>
      intro hm p hp
      have hq : 0 < q.2 := hm q (List.mem_cons_self _ _)
      have ht : PosMap t := fun r hr => hm r (List.mem_cons_of_mem _ hr)
      by_cases h : q.1 = k
      · rw [show addScore (q :: t) k v = (q.1, q.2 + v) :: t by
          simp only [addScore, if_pos h]] at hp
        rcases List.mem_cons.mp hp with h1 | h1
        · rw [h1]
          exact add_pos hq hv
        · exact ht p h1
      · rw [show addScore (q :: t) k v = q :: addScore t k v by
          simp only [addScore, if_neg h]] at hp
        rcases List.mem_cons.mp hp with h1 | h1
        · rw [h1]
          exact hq
        · exact ih ht p h1

theorem posMap_addScores :
    ∀ (l : List (String × ℚ)) (m : ScoreMap), PosMap m →
      (∀ p ∈ l, 0 < p.2) → PosMap (addScores m l) := by
  intro l
  induction l with
  | nil =>
      intro m hm _
      simpa [addScores_nil] using hm
  | cons p t ih =>
      intro m hm hl
      rw [addScores_cons]
      exact ih (addScore m p.1 p.2)
        (posMap_addScore (hl p (List.mem_cons_self _ _)) m hm)
        (fun q hq => hl q (List.mem_cons_of_mem _ hq))

theorem exactList_pos (L : Lexicon) (ws : List String) :
    ∀ p ∈ exactList L ws, 0 < p.2 := by
  intro p hp
  simp only [exactList, List.mem_filterMap] at hp
  obtain ⟨w, _, hw⟩ := hp
  simp only [exactContribWord, Option.map_eq_some'] at hw
  obtain ⟨e, _, hpe⟩ := hw
  rw [← hpe]
  norm_num

theorem fuzzyContribsWord_pos (L : Lexicon) (w : String) :
    ∀ p ∈ fuzzyContribsWord L w, 0 < p.2 := by
  intro p hp
  simp only [fuzzyContribsWord, List.mem_flatMap, List.mem_filterMap] at hp
  obtain ⟨q, _, k, _, hk⟩ := hp
  split_ifs at hk with h1 h2 h3
  · rw [← Option.some_inj.mp hk]
    norm_num
  · rw [← Option.some_inj.mp hk]
    norm_num

theorem fuzzyList_pos (L : Lexicon) (ws : List String) :
    ∀ p ∈ fuzzyList L ws, 0 < p.2 := by
  intro p hp
  simp only [fuzzyList, List.mem_flatMap] at hp
  obtain ⟨w, _, hw⟩ := hp
  exact fuzzyContribsWord_pos L w p hw

theorem semanticContribsWord_pos (w : String) :
    ∀ p ∈ semanticContribsWord w, 0 < p.2 := by
  intro p hp
  simp only [semanticContribsWord, List.mem_flatMap, List.mem_filterMap] at hp
  obtain ⟨q, _, sw, _, hk⟩ := hp
  split_ifs at hk with h1
  rw [← Option.some_inj.mp hk]
  norm_num

theorem posMap_semanticScores (ws : List String) : PosMap (semanticScores ws) := by
  refine posMap_addScores _ [] posMap_nil ?_
  intro p hp
  simp only [List.mem_flatMap] at hp
  obtain ⟨w, _, hw⟩ := hp
  exact semanticContribsWord_pos w p hw

theorem posMap_scoresAfterPass3 (L : Lexicon) (ws : List String) :
    PosMap (scoresAfterPass3 L ws) := by
  refine posMap_addScores _ _ (posMap_addScores _ _ (posMap_addScores _ _
    posMap_nil (exactList_pos L ws)) (fuzzyList_pos L ws)) ?_
  exact fun p hp => posMap_semanticScores ws p hp

theorem posMap_polarityBlock {m : ScoreMap} (tm p s : ℚ) (hm : PosMap m) :
    PosMap (polarityBlock m tm p s) := by
  unfold polarityBlock
  split_ifs with h1 h2 h3 h4
  · have hp0 : 0 < p := lt_trans (by norm_num) h2
    exact posMap_addScore (by linarith) _
      (posMap_addScore (by linarith) _ hm)
  · have hp0 : 0 < |p| := abs_pos.mpr (by intro h; rw [h] at h3; norm_num at h3)
    exact posMap_addScore (by linarith) _
      (posMap_addScore (by linarith) _ hm)
  · exact posMap_addScore (by norm_num) _
      (posMap_addScore (by norm_num) _ hm)
  · exact hm
  · exact hm

theorem posMap_zeroGuard {m : ScoreMap} (s : ℚ) (hm : PosMap m) :
    PosMap (zeroGuard m s) := by
  unfold zeroGuard
  split_ifs with h1 h2
  · exact posMap_addScore (by norm_num) _ hm
  · exact posMap_addScore (by norm_num) _ hm
  · exact hm

theorem posMap_pass4 {m : ScoreMap} (o : Option (ℚ × ℚ)) (tm : ℚ)
    (hm : PosMap m) : PosMap (pass4 o m tm) := by
  match o with
  | some (p, s) => exact posMap_zeroGuard s (posMap_polarityBlock tm p s hm)
  | none =>
      unfold pass4
      split_ifs with h1
      · exact posMap_addScore (by norm_num) _ hm
      · exact hm

theorem posMap_rawScores (L : Lexicon) (sent : Sentiment) (ws : List String) :
    PosMap (rawScores L sent ws) := by
  unfold rawScores
  split_ifs with h
  · exact posMap_nil
  · exact posMap_pass4 _ _ (posMap_scoresAfterPass3 L ws)

theorem sumQ_nonneg {m : ScoreMap} (hm : PosMap m) : 0 ≤ sumQ m := by
  refine List.sum_nonneg ?_
  intro a ha
  simp only [List.mem_map] at ha
  obtain ⟨p, hp, rfl⟩ := ha
  exact le_of_lt (hm p hp)

theorem sumQ_pos {m : ScoreMap} (hm : PosMap m) (hne : m ≠ []) : 0 < sumQ m := by
  refine List.sum_pos _ ?_ ?_
  · intro a ha
    simp only [List.mem_map] at ha
    obtain ⟨p, hp, rfl⟩ := ha
    exact hm p hp
  · simpa using hne

theorem ne_nil_of_sumQ_pos {m : ScoreMap} (h : 0 < sumQ m) : m ≠ [] := by
  intro he
  rw [he] at h
  simp [sumQ] at h

theorem sumQ_rawScores_pos (L : Lexicon) (sent : Sentiment) {ws : List String}
    (hne : ws ≠ []) : 0 < sumQ (rawScores L sent ws) := by
  unfold rawScores
  rw [if_neg hne]
  have hp3 : PosMap (scoresAfterPass3 L ws) := posMap_scoresAfterPass3 L ws
  cases ho : sent (String.intercalate " " ws) with
  | none =>
      simp only [pass4]
      split_ifs with h1
      · rw [sumQ_addScore, h1]
        norm_num
      · exact lt_of_le_of_ne (sumQ_nonneg hp3) (Ne.symm h1)
  | some ps =>
      obtain ⟨p, s⟩ := ps
      have hp4 : PosMap (polarityBlock (scoresAfterPass3 L ws)
          (totalMatches L ws) p s) := posMap_polarityBlock _ _ _ hp3
      simp only [pass4, zeroGuard]
      split_ifs with h1 h2
      · rw [sumQ_addScore, h1]
        norm_num
      · rw [sumQ_addScore, h1]
        norm_num
      · exact lt_of_le_of_ne (sumQ_nonneg hp4) (Ne.symm h1)

/-! Helper lemmas about smoothing and normalization. -/

theorem filter_pos_eq : ∀ m : ScoreMap, PosMap m →
    m.filter (fun p => decide (0 < p.2)) = m := by
  intro m
  induction m with
  | nil => intro _; rfl
  | cons p t ih =>
      intro hm
      rw [List.filter_cons, if_pos (decide_eq_true (hm p (List.mem_cons_self _ _))),
        ih (fun q hq => hm q (List.mem_cons_of_mem _ hq))]

theorem smoothed_of_posMap {raw : ScoreMap} (hm : PosMap raw) :
    smoothed raw = raw.map (fun p => (p.1, Real.sqrt (p.2 : ℝ))) := by
  unfold smoothed
  rw [filter_pos_eq raw hm]

theorem smoothedTotal_pos {raw : ScoreMap} (hm : PosMap raw) (hne : raw ≠ []) :
    0 < smoothedTotal raw := by
  unfold smoothedTotal sumR
  rw [smoothed_of_posMap hm]
  refine List.sum_pos _ ?_ ?_
  · intro a ha
    simp only [List.map_map, List.mem_map, Function.comp] at ha
    obtain ⟨p, hp, rfl⟩ := ha
    exact Real.sqrt_pos.mpr (by exact_mod_cast hm p hp)
  · simpa using hne

theorem sumR_map_div (c : ℝ) : ∀ l : List (String × ℝ),
    sumR (l.map (fun p => (p.1, p.2 / c))) = sumR l / c := by
  intro l
  induction l with
  | nil => simp [sumR]
  | cons p t ih =>
      simp only [sumR, List.map_cons, List.sum_cons] at ih ⊢
      rw [ih, add_div]

theorem normalizeScores_of_pos {raw : ScoreMap} (hm : PosMap raw)
    (hne : raw ≠ []) :
    normalizeScores raw =
      (smoothed raw).map (fun p => (p.1, p.2 / smoothedTotal raw)) := by
  unfold normalizeScores
  rw [if_pos (sumQ_pos hm hne), if_pos (smoothedTotal_pos hm hne)]

theorem normalizeScores_sumR {raw : ScoreMap} (hm : PosMap raw)
    (hne : raw ≠ []) : sumR (normalizeScores raw) = 1 := by
  rw [normalizeScores_of_pos hm hne, sumR_map_div]
  exact div_self (ne_of_gt (smoothedTotal_pos hm hne))

theorem normalizeScores_ne_nil {raw : ScoreMap} (hm : PosMap raw)
    (hne : raw ≠ []) : normalizeScores raw ≠ [] := by
  rw [normalizeScores_of_pos hm hne, smoothed_of_posMap hm]
  simpa using hne

theorem normalizeScores_nil : normalizeScores [] = [] := by
  unfold normalizeScores
  simp [sumQ]

theorem calculate_eq_nil_iff (L : Lexicon) (sent : Sentiment)
    (ws : List String) :
    calculate_emotion_weights L sent ws = [] ↔ ws = [] := by
  constructor
  · intro hw
    by_contra hne
    exact normalizeScores_ne_nil (posMap_rawScores L sent ws)
      (ne_nil_of_sumQ_pos (sumQ_rawScores_pos L sent hne)) hw
  · intro hw
    rw [hw]
    unfold calculate_emotion_weights rawScores
    rw [if_pos rfl, normalizeScores_nil]

/-! Claim theorems. -/

/-- Claim C1: for every lexicon, polarity oracle and word list, the sum of
the values of the map returned by calculate_emotion_weights is either 0 with
the map empty, or exactly 1, since every strictly positive raw score is
replaced by its square root and each smoothed value is divided by the sum of
all smoothed values. -/
theorem c1_weight_sum_empty_or_one (L : Lexicon) (sent : Sentiment)
    (words : List String) :
    (calculate_emotion_weights L sent words = [] ∧
      sumR (calculate_emotion_weights L sent words) = 0) ∨
    sumR (calculate_emotion_weights L sent words) = 1 := by
  rcases eq_or_ne (rawScores L sent words) [] with h | h
  · left
    have hz : calculate_emotion_weights L sent words = [] := by
      unfold calculate_emotion_weights
      rw [h, normalizeScores_nil]
    exact ⟨hz, by rw [hz]; rfl⟩
  · right
    unfold calculate_emotion_weights
    exact normalizeScores_sumR (posMap_rawScores L sent words) h

/-- Claim C3: for every non-empty word list the raw accumulator has strictly
positive total after the four passes, thanks to the calm fallback, so
calculate_emotion_weights returns a non-empty map. -/
theorem c3_nonempty_words_nonempty_weights (L : Lexicon) (sent : Sentiment)
    {words : List String} (h : words ≠ []) :
    0 < sumQ (rawScores L sent words) ∧
      calculate_emotion_weights L sent words ≠ [] := by
  have h1 := sumQ_rawScores_pos L sent h
  refine ⟨h1, ?_⟩
  unfold calculate_emotion_weights
  exact normalizeScores_ne_nil (posMap_rawScores L sent words)
    (ne_nil_of_sumQ_pos h1)

/-- Witness for claim C3 at a concrete lexicon, oracle and word list. -/
theorem c3_nonempty_words_nonempty_weights_witness :
    0 < sumQ (rawScores [] (fun _ => none) ["思绪"]) ∧
      calculate_emotion_weights [] (fun _ => none) ["思绪"] ≠ [] :=
  c3_nonempty_words_nonempty_weights [] (fun _ => none) (by decide)

/-- Claim C9: an input whose trimmed form is empty yields, with no fault, the
result with empty weights, empty keywords, null dominant emotion, zero
diversity, no words and zero count. -/
theorem c9_empty_input_empty_result (L : Lexicon) (stop : List String)
    (sent : Sentiment) (cut : String → List String) {text : String}
    (h : stripStr text = "") :
    analyze_text L stop sent cut text = ⟨[], [], none, 0, [], 0⟩ := by
  unfold analyze_text
  rw [if_pos h]

/-- Witness for claim C9 at a whitespace only input. -/
theorem c9_empty_input_empty_result_witness :
    analyze_text [] [] (fun _ => none) (fun _ => []) "  " =
      ⟨[], [], none, 0, [], 0⟩ :=
  c9_empty_input_empty_result [] [] (fun _ => none) (fun _ => []) (by decide)

/-- Modelled from the spec: the jieba word segmenter is an external
deterministic CJK aware collaborator (spec 4.1) whose code is not among the
sources; every deterministic segmentation of an input consisting of one
single letter returns that letter as the only token. -/
def cutSingle : String → List String := fun s => [s]

/-- Counterexample to claim C2: the input "a" is not empty and not whitespace
only, yet analyze_text returns an empty emotion_weights map, because its only
token has length 1 and is dropped by preprocessing. -/
theorem c2_counterexample :
    stripStr "a" ≠ "" ∧
      (analyze_text [] [] (fun _ => none) cutSingle "a").emotion_weights = [] := by
  have hw : preprocess_text [] cutSingle "a" = [] := by decide
  refine ⟨by decide, ?_⟩
  unfold analyze_text
  rw [if_neg (by decide : ¬(stripStr "a" = ""))]
  show calculate_emotion_weights [] (fun _ => none)
    (preprocess_text [] cutSingle "a") = []
  rw [hw]
  exact (calculate_eq_nil_iff _ _ _).mpr rfl

/-- Claim C2 amended: the emotion_weights map of analyze_text is empty
exactly when the processed word list is empty; a non-whitespace input can
still yield an empty map when every token is filtered out. -/
theorem c2_amended_weights_empty_iff_no_words (L : Lexicon)
    (stop : List String) (sent : Sentiment) (cut : String → List String)
    (text : String) :
    (analyze_text L stop sent cut text).emotion_weights = [] ↔
      (analyze_text L stop sent cut text).processed_words = [] := by
  unfold analyze_text
  split_ifs with h
  · simp
  · show calculate_emotion_weights L sent (preprocess_text stop cut text) = [] ↔
      preprocess_text stop cut text = []
    exact calculate_eq_nil_iff L sent (preprocess_text stop cut text)

/-! Properties of the Python max over weight items. -/

theorem argmaxFold_spec :
    ∀ (t : List (String × ℝ)) (h : String × ℝ),
      (t.foldl (fun best q => if best.2 < q.2 then q else best) h) ∈ h :: t ∧
      h.2 ≤ (t.foldl (fun best q => if best.2 < q.2 then q else best) h).2 ∧
      ∀ p ∈ t, p.2 ≤ (t.foldl (fun best q => if best.2 < q.2 then q else best) h).2 := by
  intro t
  induction t with
  | nil =>
      intro h
      refine ⟨List.mem_cons_self _ _, le_refl _, ?_⟩
      intro p hp
      cases hp
  | cons q t ih =>
      intro h
      simp only [List.foldl_cons]
      obtain ⟨m1, m2, m3⟩ := ih (if h.2 < q.2 then q else h)
      have hle_h : h.2 ≤ (if h.2 < q.2 then q else h).2 := by
        by_cases hc : h.2 < q.2
        · rw [if_pos hc]
          exact le_of_lt hc
        · rw [if_neg hc]
      have hle_q : q.2 ≤ (if h.2 < q.2 then q else h).2 := by
        by_cases hc : h.2 < q.2
        · rw [if_pos hc]
        · rw [if_neg hc]
          exact le_of_not_lt hc
      refine ⟨?_, le_trans hle_h m2, ?_⟩
      · rcases List.mem_cons.mp m1 with h1 | h1
        · rw [h1]
          by_cases hc : h.2 < q.2
          · rw [if_pos hc]
            exact List.mem_cons_of_mem _ (List.mem_cons_self _ _)
          · rw [if_neg hc]
            exact List.mem_cons_self _ _
        · exact List.mem_cons_of_mem _ (List.mem_cons_of_mem _ h1)
      · intro p hp
        rcases List.mem_cons.mp hp with h1 | h1
        · rw [h1]
          exact le_trans hle_q m2
        · exact m3 p h1

theorem listArgmax_spec (W : List (String × ℝ)) :
    (listArgmax W = none ↔ W = []) ∧
    (∀ e, listArgmax W = some e →
      ∃ v, (e, v) ∈ W ∧ ∀ p ∈ W, p.2 ≤ v) := by
  cases W with
  | nil =>
      constructor
      · simp [listArgmax]
      · intro e he
        simp [listArgmax] at he
  | cons h t =>
      constructor
      · simp [listArgmax]
      · intro e he
        simp only [listArgmax, Option.some_inj] at he
        obtain ⟨m1, m2, m3⟩ := argmaxFold_spec t h
        refine ⟨(t.foldl (fun best q => if best.2 < q.2 then q else best) h).2,
          ?_, ?_⟩
        · rw [← he]
          exact m1
        · intro p hp
          rcases List.mem_cons.mp hp with h1 | h1
          · rw [h1]
            exact m2
          · exact m3 p h1

/-- Claim C4: the dominant emotion of analyze_text is null exactly when the
weight map is empty, and otherwise it is a key whose weight is greater than
or equal to every weight of the map, the first such key in insertion order. -/
theorem c4_dominant_is_argmax (L : Lexicon) (stop : List String)
    (sent : Sentiment) (cut : String → List String) (text : String) :
    ((analyze_text L stop sent cut text).dominant_emotion = none ↔
      (analyze_text L stop sent cut text).emotion_weights = []) ∧
    (∀ e, (analyze_text L stop sent cut text).dominant_emotion = some e →
      ∃ v, (e, v) ∈ (analyze_text L stop sent cut text).emotion_weights ∧
        ∀ p ∈ (analyze_text L stop sent cut text).emotion_weights, p.2 ≤ v) := by
  unfold analyze_text
  split_ifs with h
  · constructor
    · simp
    · intro e he
      simp at he
  · show (listArgmax (calculate_emotion_weights L sent
        (preprocess_text stop cut text)) = none ↔
        calculate_emotion_weights L sent (preprocess_text stop cut text) = []) ∧
      (∀ e, listArgmax (calculate_emotion_weights L sent
        (preprocess_text stop cut text)) = some e →
        ∃ v, (e, v) ∈ calculate_emotion_weights L sent
            (preprocess_text stop cut text) ∧
          ∀ p ∈ calculate_emotion_weights L sent
            (preprocess_text stop cut text), p.2 ≤ v)
    exact listArgmax_spec _

/-- Closed corollary of claim C4 at a concrete input. -/
theorem c4_dominant_is_argmax_witness :
    (analyze_text [] [] (fun _ => none) (fun _ => []) "").dominant_emotion =
        none ↔
      (analyze_text [] [] (fun _ => none) (fun _ => []) "").emotion_weights = [] :=
  (c4_dominant_is_argmax [] [] (fun _ => none) (fun _ => []) "").1

/-! Lemmas about the emotion dict and the substring test. -/

theorem listPrefixOf_refl : ∀ l : List Char, listPrefixOf l l = true := by
  intro l
  induction l with
  | nil => rfl
  | cons c t ih => simp [listPrefixOf, ih]

theorem strIn_refl (s : String) : strIn s s = true := by
  unfold strIn
  cases hl : s.toList with
  | nil => rfl
  | cons c t => simp [listInfixOf, listPrefixOf_refl]

theorem emotionDictLookup_go {w c : String} :
    ∀ (L : Lexicon) (acc : Option String),
      L.foldl (fun a p => if w ∈ p.2 then some p.1 else a) acc = some c →
      (∃ kws, (c, kws) ∈ L ∧ w ∈ kws) ∨ acc = some c := by
  intro L
  induction L with
  | nil =>
      intro acc h
      right
      exact h
  | cons p t ih =>
      intro acc h
      simp only [List.foldl_cons] at h
      rcases ih _ h with h1 | h1
      · obtain ⟨kws, hm, hw⟩ := h1
        exact Or.inl ⟨kws, List.mem_cons_of_mem _ hm, hw⟩
      · by_cases hw : w ∈ p.2
        · rw [if_pos hw] at h1
          left
          refine ⟨p.2, ?_, hw⟩
          have : p.1 = c := Option.some_inj.mp h1
          rw [← this]
          exact List.mem_cons_self _ _
        · rw [if_neg hw] at h1
          exact Or.inr h1

theorem emotionDictLookup_mem {L : Lexicon} {w c : String}
    (h : emotionDictLookup L w = some c) : ∃ kws, (c, kws) ∈ L ∧ w ∈ kws := by
  rcases emotionDictLookup_go L none h with h1 | h1
  · exact h1
  · cases h1

/-- Claim C10: a token equal to a lexicon keyword of length at least 2
produces, per occurrence, the direct contribution (c, 1.5) and the fuzzy
containment contribution (c, 0.8) towards the dict category c of the keyword
(2.3 in total), and each occurrence increments the direct counter by one and
the fuzzy counter by at least one. -/
theorem c10_exact_token_double_contribution (L : Lexicon) (ws : List String)
    {w c : String} (h1 : emotionDictLookup L w = some c) (h2 : 2 ≤ w.length) :
    exactContribWord L w = some (c, 3 / 2) ∧
      (c, 4 / 5) ∈ fuzzyContribsWord L w ∧
      (exactList L (w :: ws)).length = (exactList L ws).length + 1 ∧
      (fuzzyList L ws).length + 1 ≤ (fuzzyList L (w :: ws)).length := by
  have hex : exactContribWord L w = some (c, 3 / 2) := by
    unfold exactContribWord
    rw [h1]
    rfl
  have hfz : (c, 4 / 5) ∈ fuzzyContribsWord L w := by
    obtain ⟨kws, hm, hw⟩ := emotionDictLookup_mem h1
    unfold fuzzyContribsWord
    rw [List.mem_flatMap]
    refine ⟨(c, kws), hm, ?_⟩
    rw [List.mem_filterMap]
    refine ⟨w, hw, ?_⟩
    rw [if_pos h2, if_pos ⟨strIn_refl w, by omega⟩]
  refine ⟨hex, hfz, ?_, ?_⟩
  · unfold exactList
    rw [List.filterMap_cons_some hex]
    rfl
  · unfold fuzzyList
    rw [List.flatMap_cons, List.length_append]
    have : 1 ≤ (fuzzyContribsWord L w).length :=
      List.length_pos.mpr (List.ne_nil_of_mem hfz)
    omega

/-- Witness for claim C10 at a concrete lexicon and keyword token. -/
theorem c10_exact_token_double_contribution_witness :
    exactContribWord [("忧伤", ["心碎"])] "心碎" = some ("忧伤", 3 / 2) ∧
      ("忧伤", 4 / 5) ∈ fuzzyContribsWord [("忧伤", ["心碎"])] "心碎" ∧
      (exactList [("忧伤", ["心碎"])] ["心碎"]).length =
        (exactList [("忧伤", ["心碎"])] []).length + 1 ∧
      (fuzzyList [("忧伤", ["心碎"])] []).length + 1 ≤
        (fuzzyList [("忧伤", ["心碎"])] ["心碎"]).length :=
  c10_exact_token_double_contribution [("忧伤", ["心碎"])] [] (by decide)
    (by decide)

/-- Claim C7: the polarity driven block modifies the accumulator only when
total_matches is strictly less than 2 and subjectivity is strictly greater
than 0.3; and when the polarity scorer raises, the failure is swallowed and
the whole fourth pass only adds 0.1 to the calm category when the accumulator
sums to zero, leaving it unchanged otherwise. -/
theorem c7_fallback_guard_and_silent_failure (m : ScoreMap) (tm p s : ℚ) :
    (polarityBlock m tm p s ≠ m → tm < 2 ∧ 3 / 10 < s) ∧
      pass4 none m tm =
        (if sumQ m = 0 then addScore m "平静" (1 / 10) else m) := by
  constructor
  · intro hne
    by_contra hc
    exact hne (by unfold polarityBlock; rw [if_neg hc])
  · rfl

/-- Witness for claim C7: at total_matches 0, polarity 1, subjectivity 1 the
block does modify the accumulator, and the guard conditions hold; and the
raising branch adds 0.1 to calm on the empty accumulator. -/
theorem c7_fallback_guard_and_silent_failure_witness :
    ((0 : ℚ) < 2 ∧ (3 : ℚ) / 10 < 1) ∧
      pass4 none [] 0 = addScore [] "平静" (1 / 10) := by
  constructor
  · refine (c7_fallback_guard_and_silent_failure [] 0 1 1).1 ?_
    simp +decide [polarityBlock, addScore]
    norm_num
    exact List.cons_ne_nil _ _
  · rw [(c7_fallback_guard_and_silent_failure [] 0 1 1).2]
    rfl

/-- Claim C6: when a word list yields exactly one direct hit of weight 1.5 on
category c, exactly the self containment fuzzy hit of weight 0.8 on c, and no
semantic contributions, then total_matches is exactly 2, so the polarity
fallback cannot fire for any oracle answer, the raw accumulator is
[(c, 2.3)], and the returned weight map is exactly [(c, 1)]. -/
theorem c6_single_keyword_weight_one (L : Lexicon) (sent : Sentiment)
    {words : List String} {c : String} (hne : words ≠ [])
    (hex : exactList L words = [(c, 3 / 2)])
    (hfz : fuzzyList L words = [(c, 4 / 5)])
    (hsem : semanticScores words = []) :
    totalMatches L words = 2 ∧
      rawScores L sent words = [(c, 23 / 10)] ∧
      calculate_emotion_weights L sent words = [(c, 1)] := by
  have htm : totalMatches L words = 2 := by
    unfold totalMatches
    rw [hex, hfz, hsem]
    norm_num [sumQ]
  have h3 : scoresAfterPass3 L words = [(c, 23 / 10)] := by
    unfold scoresAfterPass3
    rw [hex, hfz, hsem]
    simp [addScores_cons, addScores_nil, addScore]
    norm_num
  have hsum : ¬ sumQ [(c, 23 / 10)] = 0 := by norm_num [sumQ]
  have hraw : rawScores L sent words = [(c, 23 / 10)] := by
    unfold rawScores
    rw [if_neg hne, h3, htm]
    cases ho : sent (String.intercalate " " words) with
    | none =>
        simp only [pass4]
        rw [if_neg hsum]
    | some ps =>
        obtain ⟨p, s⟩ := ps
        simp only [pass4, zeroGuard]
        rw [show polarityBlock [(c, 23 / 10)] 2 p s = [(c, 23 / 10)] by
          unfold polarityBlock
          rw [if_neg (by intro hc; exact absurd hc.1 (lt_irrefl 2))]]
        rw [if_neg hsum]
  have hpm : PosMap [(c, 23 / 10)] := by
    intro q hq
    rw [List.mem_singleton.mp hq]
    norm_num
  refine ⟨htm, hraw, ?_⟩
  unfold calculate_emotion_weights
  rw [hraw, normalizeScores_of_pos hpm (by simp)]
  unfold smoothedTotal sumR
  rw [smoothed_of_posMap hpm]
  simp only [List.map_cons, List.map_nil, List.sum_cons, List.sum_nil, add_zero]
  rw [div_self (ne_of_gt (Real.sqrt_pos.mpr (by norm_num)))]

/-- Witness for claim C6 at a concrete one-keyword lexicon and its keyword as
the only token. -/
theorem c6_single_keyword_weight_one_witness :
    totalMatches [("喜悦", ["快乐"])] ["快乐"] = 2 ∧
      rawScores [("喜悦", ["快乐"])] (fun _ => none) ["快乐"] =
        [("喜悦", 23 / 10)] ∧
      calculate_emotion_weights [("喜悦", ["快乐"])] (fun _ => none) ["快乐"] =
        [("喜悦", 1)] :=
  c6_single_keyword_weight_one [("喜悦", ["快乐"])] (fun _ => none)
    (by decide)
    (by simp +decide [exactList, exactContribWord, emotionDictLookup])
    (by simp +decide [fuzzyList, fuzzyContribsWord])
    (by simp +decide [semanticScores, semanticContribsWord, semanticRules,
      addScores])

/-! Entropy bounds for the diversity score. -/

theorem sum_map_sub (f g : ℝ → ℝ) : ∀ l : List ℝ,
    (l.map (fun x => f x - g x)).sum = (l.map f).sum - (l.map g).sum := by
  intro l
  induction l with
  | nil => simp
  | cons x t ih =>
      simp only [List.map_cons, List.sum_cons, ih]
      ring

theorem sum_map_neg (f : ℝ → ℝ) : ∀ l : List ℝ,
    (l.map (fun x => -f x)).sum = -((l.map f).sum) := by
  intro l
  induction l with
  | nil => simp
  | cons x t ih =>
      simp only [List.map_cons, List.sum_cons, ih]
      ring

theorem sum_map_const (c : ℝ) : ∀ l : List ℝ,
    (l.map (fun _ => c)).sum = (l.length : ℝ) * c := by
  intro l
  induction l with
  | nil => simp
  | cons x t ih =>
      simp only [List.map_cons, List.sum_cons, ih, List.length_cons]
      push_cast
      ring

theorem sum_map_mul_const (f : ℝ → ℝ) (c : ℝ) : ∀ l : List ℝ,
    (l.map (fun x => f x * c)).sum = (l.map f).sum * c := by
  intro l
  induction l with
  | nil => simp
  | cons x t ih =>
      simp only [List.map_cons, List.sum_cons, ih]
      ring

theorem sum_map_div_const (f : ℝ → ℝ) (c : ℝ) : ∀ l : List ℝ,
    (l.map (fun x => f x / c)).sum = (l.map f).sum / c := by
  intro l
  induction l with
  | nil => simp
  | cons x t ih =>
      simp only [List.map_cons, List.sum_cons, ih]
      rw [add_div]

theorem listEntropy_ln_le (l : List ℝ) (hpos : ∀ x ∈ l, 0 < x)
    (hsum : l.sum = 1) :
    -((l.map (fun x => x * Real.log x)).sum) ≤ Real.log (l.length : ℝ) := by
  have hne : l ≠ [] := by
    intro h
    rw [h] at hsum
    simp at hsum
  have hn : (0 : ℝ) < (l.length : ℝ) := by
    exact_mod_cast List.length_pos.mpr hne
  have key : ∀ x ∈ l, x * Real.log (1 / (x * (l.length : ℝ))) ≤
      1 / (l.length : ℝ) - x := by
    intro x hx
    have hx0 := hpos x hx
    have h1 : Real.log (1 / (x * (l.length : ℝ))) ≤
        1 / (x * (l.length : ℝ)) - 1 :=
      Real.log_le_sub_one_of_pos (by positivity)
    have h2 : x * Real.log (1 / (x * (l.length : ℝ))) ≤
        x * (1 / (x * (l.length : ℝ)) - 1) :=
      mul_le_mul_of_nonneg_left h1 (le_of_lt hx0)
    have h3 : x * (1 / (x * (l.length : ℝ)) - 1) = 1 / (l.length : ℝ) - x := by
      field_simp
      ring
    linarith
  have hsum_le : (l.map (fun x => x * Real.log (1 / (x * (l.length : ℝ))))).sum ≤
      (l.map (fun x => 1 / (l.length : ℝ) - x)).sum := List.sum_le_sum key
  have hrhs : (l.map (fun x => 1 / (l.length : ℝ) - x)).sum = 0 := by
    rw [sum_map_sub (fun _ => 1 / (l.length : ℝ)) (fun x => x) l,
      sum_map_const (1 / (l.length : ℝ)) l]
    simp only [List.map_id']
    rw [hsum, mul_one_div, div_self (ne_of_gt hn)]
    norm_num
  have hlhs : (l.map (fun x => x * Real.log (1 / (x * (l.length : ℝ))))).sum =
      -((l.map (fun x => x * Real.log x)).sum) -
        Real.log (l.length : ℝ) := by
    have hx_expand : ∀ x ∈ l, x * Real.log (1 / (x * (l.length : ℝ))) =
        -(x * Real.log x) - x * Real.log (l.length : ℝ) := by
      intro x hx
      have hx0 := hpos x hx
      rw [one_div, Real.log_inv, Real.log_mul (ne_of_gt hx0) (ne_of_gt hn)]
      ring
    rw [List.map_congr_left hx_expand,
      sum_map_sub (fun x => -(x * Real.log x)) (fun x => x * Real.log (l.length : ℝ)) l]
    have e1 : (l.map (fun x => -(x * Real.log x))).sum =
        -((l.map (fun x => x * Real.log x)).sum) :=
      sum_map_neg (fun x => x * Real.log x) l
    have e2 : (l.map (fun x => x * Real.log (l.length : ℝ))).sum =
        l.sum * Real.log (l.length : ℝ) := by
      have := sum_map_mul_const (fun x => x) (Real.log (l.length : ℝ)) l
      simpa using this
    rw [e1, e2, hsum, one_mul]
  rw [hlhs] at hsum_le
  rw [hrhs] at hsum_le
  linarith

theorem listEntropy_logb_eq (l : List ℝ) :
    -((l.map (fun x => x * Real.logb 2 x)).sum) =
      -((l.map (fun x => x * Real.log x)).sum) / Real.log 2 := by
  have hexp : ∀ x ∈ l, x * Real.logb 2 x = (x * Real.log x) / Real.log 2 := by
    intro x _
    rw [Real.logb]
    ring
  rw [List.map_congr_left hexp,
    sum_map_div_const (fun x => x * Real.log x) (Real.log 2) l, neg_div]

theorem listEntropy_logb_le (l : List ℝ) (hpos : ∀ x ∈ l, 0 < x)
    (hsum : l.sum = 1) :
    -((l.map (fun x => x * Real.logb 2 x)).sum) ≤
      Real.logb 2 (l.length : ℝ) := by
  have h2 : (0 : ℝ) < Real.log 2 := Real.log_pos (by norm_num)
  rw [listEntropy_logb_eq, Real.logb]
  exact (div_le_div_iff_of_pos_right h2).mpr (listEntropy_ln_le l hpos hsum)

theorem listEntropy_logb_nonneg (l : List ℝ) (hpos : ∀ x ∈ l, 0 < x)
    (hsum : l.sum = 1) :
    0 ≤ -((l.map (fun x => x * Real.logb 2 x)).sum) := by
  have hle : ∀ x ∈ l, x * Real.logb 2 x ≤ 0 := by
    intro x hx
    have hx0 := hpos x hx
    have hx1 : x ≤ 1 :=
      hsum ▸ List.single_le_sum (fun y hy => le_of_lt (hpos y hy)) x hx
    have hlb : Real.logb 2 x ≤ 0 :=
      Real.logb_nonpos (by norm_num) (le_of_lt hx0) hx1
    nlinarith
  have hs : (l.map (fun x => x * Real.logb 2 x)).sum ≤
      (l.map (fun _ => (0 : ℝ))).sum := List.sum_le_sum hle
  have h0 : (l.map (fun _ => (0 : ℝ))).sum = 0 := by
    rw [sum_map_const 0 l]
    ring
  rw [h0] at hs
  linarith

theorem positiveWeights_pos (w : List (String × ℝ)) :
    ∀ x ∈ positiveWeights w, 0 < x := by
  intro x hx
  unfold positiveWeights at hx
  rw [List.mem_filter] at hx
  exact of_decide_eq_true hx.2

/-- Claim C5: the diversity score is 0 when at most one weight is strictly
positive; with at least two positive weights it equals the Shannon entropy of
the positive weights divided by log2 of their number; and whenever the
positive weights sum to 1 it lies inside [0, 1]. -/
theorem c5_diversity_entropy (w : List (String × ℝ)) :
    ((positiveWeights w).length ≤ 1 → emotionDiversity w = 0) ∧
    (2 ≤ (positiveWeights w).length →
      emotionDiversity w =
        -(((positiveWeights w).map (fun x => x * Real.logb 2 x)).sum) /
          Real.logb 2 ((positiveWeights w).length : ℝ)) ∧
    ((positiveWeights w).sum = 1 →
      0 ≤ emotionDiversity w ∧ emotionDiversity w ≤ 1) := by
  have hzero : (positiveWeights w).length ≤ 1 → emotionDiversity w = 0 := by
    intro h
    unfold emotionDiversity
    by_cases hw : w = []
    · rw [if_pos hw]
    · rw [if_neg hw, if_pos h]
  have hform : 2 ≤ (positiveWeights w).length →
      emotionDiversity w =
        -(((positiveWeights w).map (fun x => x * Real.logb 2 x)).sum) /
          Real.logb 2 ((positiveWeights w).length : ℝ) := by
    intro h
    have hne : w ≠ [] := by
      intro hw
      rw [hw] at h
      simp [positiveWeights] at h
    have hlb : 0 < Real.logb 2 ((positiveWeights w).length : ℝ) := by
      refine Real.logb_pos (by norm_num) ?_
      exact_mod_cast lt_of_lt_of_le one_lt_two h
    unfold emotionDiversity
    rw [if_neg hne, if_neg (by omega), if_pos hlb]
  refine ⟨hzero, hform, ?_⟩
  intro hsum
  rcases le_or_lt (positiveWeights w).length 1 with h1 | h1
  · rw [hzero h1]
    norm_num
  · have h2 : 2 ≤ (positiveWeights w).length := h1
    have hpos := positiveWeights_pos w
    have hlb : 0 < Real.logb 2 ((positiveWeights w).length : ℝ) := by
      refine Real.logb_pos (by norm_num) ?_
      exact_mod_cast lt_of_lt_of_le one_lt_two h2
    rw [hform h2]
    constructor
    · exact div_nonneg (listEntropy_logb_nonneg _ hpos hsum) (le_of_lt hlb)
    · exact (div_le_one hlb).mpr (listEntropy_logb_le _ hpos hsum)

/-- Witness for claim C5 at the two-point uniform weight map. -/
theorem c5_diversity_entropy_witness :
    0 ≤ emotionDiversity [("喜悦", 1 / 2), ("温暖", 1 / 2)] ∧
      emotionDiversity [("喜悦", 1 / 2), ("温暖", 1 / 2)] ≤ 1 := by
  refine (c5_diversity_entropy [("喜悦", 1 / 2), ("温暖", 1 / 2)]).2.2 ?_
  have : positiveWeights [("喜悦", (1 : ℝ) / 2), ("温暖", 1 / 2)] =
      [1 / 2, 1 / 2] := by
    unfold positiveWeights
    norm_num [List.filter]
  rw [this]
  norm_num

/-! Characterization of the keyword attribution map. -/

/-- Keywords listed under category c in the lexicon. -/
def kwsOf (L : Lexicon) (c : String) : List String :=
  (L.filter (fun p => decide (p.1 = c))).flatMap (fun p => p.2)

/-- A token is related to category c when some keyword of c is contained in
it or it is contained in that keyword, with no length conditions, exactly
the containment test of extract_emotion_keywords. -/
def relatedB (L : Lexicon) (c w : String) : Bool :=
  (kwsOf L c).any (fun k => strIn k w || strIn w k)

theorem relatedB_iff (L : Lexicon) (c u : String) :
    relatedB L c u = true ↔
      ∃ p ∈ L, p.1 = c ∧ ∃ k ∈ p.2, (strIn k u = true ∨ strIn u k = true) := by
  unfold relatedB kwsOf
  simp only [List.any_eq_true, List.mem_flatMap, List.mem_filter,
    decide_eq_true_eq, Bool.or_eq_true]
  constructor
  · rintro ⟨k, ⟨p, ⟨hp, hpc⟩, hk⟩, hrel⟩
    exact ⟨p, hp, hpc, k, hk, hrel⟩
  · rintro ⟨p, hp, hpc, k, hk, hrel⟩
    exact ⟨k, ⟨p, ⟨hp, hpc⟩, hk⟩, hrel⟩

theorem attrGet_attrAppend : ∀ (m : AttrMap) (k w c : String),
    attrGet (attrAppend m k w) c =
      if c = k then attrGet m k ++ [w] else attrGet m c := by
  intro m
  induction m with
  | nil =>
      intro k w c
      by_cases h : c = k
      · subst h
        simp [attrAppend, attrGet]
      · have h2 : ¬ k = c := fun hh => h hh.symm
        simp [attrAppend, attrGet, h, h2]
  | cons p t ih =>
      intro k w c
      by_cases hpk : p.1 = k
      · rw [show attrAppend (p :: t) k w = (p.1, p.2 ++ [w]) :: t by
          simp [attrAppend, hpk]]
        by_cases hc : c = k
        · subst hc
          simp [attrGet, hpk]
        · have hpc : ¬ p.1 = c := fun hh => hc (hh.symm.trans hpk)
          simp [attrGet, hpc, hc]
      · rw [show attrAppend (p :: t) k w = p :: attrAppend t k w by
          simp [attrAppend, hpk]]
        by_cases hpc : p.1 = c
        · have hck : ¬ c = k := fun h => hpk (hpc.symm ▸ h ▸ rfl)
          simp [attrGet, hpc, hck]
        · by_cases hck : c = k
          · subst hck
            have hpk2 : ¬ p.1 = c := hpk
            simp [attrGet, hpk2, ih, hpc]
          · simp [attrGet, hpc, hck, ih]

theorem mem_attrGet_condAppend (acc : AttrMap) (c' u c w' : String) :
    w' ∈ attrGet (condAppend acc c' u) c ↔
      w' ∈ attrGet acc c ∨ (c = c' ∧ w' = u) := by
  unfold condAppend
  split_ifs with h
  · constructor
    · exact Or.inl
    · rintro (h1 | ⟨rfl, rfl⟩)
      · exact h1
      · exact h
  · rw [attrGet_attrAppend]
    by_cases hc : c = c'
    · subst hc
      simp [List.mem_append]
    · simp [hc]

theorem mem_attrGet_kwsFold (u c' : String) :
    ∀ (kws : List String) (acc : AttrMap) (c w' : String),
      w' ∈ attrGet (kws.foldl (fun a2 k =>
          if strIn k u = true ∨ strIn u k = true then condAppend a2 c' u
          else a2) acc) c ↔
        w' ∈ attrGet acc c ∨
          (c = c' ∧ w' = u ∧
            ∃ k ∈ kws, (strIn k u = true ∨ strIn u k = true)) := by
  intro kws
  induction kws with
  | nil =>
      intro acc c w'
      simp
  | cons k t ih =>
      intro acc c w'
      rw [List.foldl_cons]
      by_cases hk : strIn k u = true ∨ strIn u k = true
      · rw [if_pos hk, ih, mem_attrGet_condAppend]
        constructor
        · rintro ((h1 | ⟨rfl, rfl⟩) | ⟨rfl, rfl, k2, hk2, hrel⟩)
          · exact Or.inl h1
          · exact Or.inr ⟨rfl, rfl, k, List.mem_cons_self _ _, hk⟩
          · exact Or.inr ⟨rfl, rfl, k2, List.mem_cons_of_mem _ hk2, hrel⟩
        · rintro (h1 | ⟨rfl, rfl, k2, hk2, hrel⟩)
          · exact Or.inl (Or.inl h1)
          · exact Or.inl (Or.inr ⟨rfl, rfl⟩)
      · rw [if_neg hk, ih]
        constructor
        · rintro (h1 | ⟨rfl, rfl, k2, hk2, hrel⟩)
          · exact Or.inl h1
          · exact Or.inr ⟨rfl, rfl, k2, List.mem_cons_of_mem _ hk2, hrel⟩
        · rintro (h1 | ⟨rfl, rfl, k2, hk2, hrel⟩)
          · exact Or.inl h1
          · rcases List.mem_cons.mp hk2 with rfl | hk3
            · exact absurd hrel hk
            · exact Or.inr ⟨rfl, rfl, k2, hk3, hrel⟩

theorem mem_attrGet_lexFold (u : String) :
    ∀ (L' : List (String × List String)) (acc : AttrMap) (c w' : String),
      w' ∈ attrGet (L'.foldl (fun a p => p.2.foldl (fun a2 k =>
          if strIn k u = true ∨ strIn u k = true then condAppend a2 p.1 u
          else a2) a) acc) c ↔
        w' ∈ attrGet acc c ∨
          (w' = u ∧ ∃ p ∈ L', p.1 = c ∧
            ∃ k ∈ p.2, (strIn k u = true ∨ strIn u k = true)) := by
  intro L'
  induction L' with
  | nil =>
      intro acc c w'
      simp
  | cons p t ih =>
      intro acc c w'
      rw [List.foldl_cons, ih, mem_attrGet_kwsFold]
      constructor
      · rintro ((h1 | ⟨rfl, rfl, k, hk, hrel⟩) | ⟨rfl, q, hq, hqc, k, hk, hrel⟩)
        · exact Or.inl h1
        · exact Or.inr ⟨rfl, p, List.mem_cons_self _ _, rfl, k, hk, hrel⟩
        · exact Or.inr ⟨rfl, q, List.mem_cons_of_mem _ hq, hqc, k, hk, hrel⟩
      · rintro (h1 | ⟨rfl, q, hq, hqc, k, hk, hrel⟩)
        · exact Or.inl (Or.inl h1)
        · rcases List.mem_cons.mp hq with rfl | hq2
          · exact Or.inl (Or.inr ⟨hqc.symm, rfl, k, hk, hrel⟩)
          · exact Or.inr ⟨rfl, q, hq2, hqc, k, hk, hrel⟩

theorem lookup_implies_related {L : Lexicon} {u c : String}
    (h : emotionDictLookup L u = some c) : relatedB L c u = true := by
  obtain ⟨kws, hm, hw⟩ := emotionDictLookup_mem h
  rw [relatedB_iff]
  exact ⟨(c, kws), hm, rfl, u, hw, Or.inl (strIn_refl u)⟩

theorem mem_attrGet_extractStep (L : Lexicon) (m : AttrMap) (u c w' : String) :
    w' ∈ attrGet (extractStep L m u) c ↔
      w' ∈ attrGet m c ∨ (w' = u ∧ relatedB L c u = true) := by
  unfold extractStep
  rw [mem_attrGet_lexFold]
  have hm1 : w' ∈ attrGet (match emotionDictLookup L u with
      | some e => attrAppend m e u
      | none => m) c ↔
      w' ∈ attrGet m c ∨ (emotionDictLookup L u = some c ∧ w' = u) := by
    cases hl : emotionDictLookup L u with
    | none => simp
    | some e =>
        rw [attrGet_attrAppend]
        by_cases hc : c = e
        · subst hc
          simp [List.mem_append]
        · have : ¬ (e = c) := fun hh => hc hh.symm
          simp [hc, this]
  rw [hm1, ← relatedB_iff]
  constructor
  · rintro ((h1 | ⟨hl, rfl⟩) | ⟨rfl, hrel⟩)
    · exact Or.inl h1
    · exact Or.inr ⟨rfl, lookup_implies_related hl⟩
    · exact Or.inr ⟨rfl, hrel⟩
  · rintro (h1 | ⟨rfl, hrel⟩)
    · exact Or.inl (Or.inl h1)
    · exact Or.inr ⟨rfl, hrel⟩

theorem mem_attrGet_extractFold (L : Lexicon) :
    ∀ (words : List String) (m : AttrMap) (c w' : String),
      w' ∈ attrGet (words.foldl (extractStep L) m) c ↔
        w' ∈ attrGet m c ∨ (w' ∈ words ∧ relatedB L c w' = true) := by
  intro words
  induction words with
  | nil =>
      intro m c w'
      simp
  | cons u t ih =>
      intro m c w'
      rw [List.foldl_cons, ih, mem_attrGet_extractStep]
      constructor
      · rintro ((h1 | ⟨rfl, hrel⟩) | ⟨ht, hrel⟩)
        · exact Or.inl h1
        · exact Or.inr ⟨List.mem_cons_self _ _, hrel⟩
        · exact Or.inr ⟨List.mem_cons_of_mem _ ht, hrel⟩
      · rintro (h1 | ⟨hu, hrel⟩)
        · exact Or.inl (Or.inl h1)
        · rcases List.mem_cons.mp hu with rfl | ht
          · exact Or.inl (Or.inr ⟨rfl, hrel⟩)
          · exact Or.inr ⟨ht, hrel⟩

/-- Counterexample to claim C8: the token 快乐, equal to a keyword and
occurring twice, is recorded twice in its category (the exact branch has no
duplicate check); and the token 好好好好 is recorded for 喜悦 although it
triggers neither the exact pass nor the fuzzy pass of the scorer (keyword 好
has length 1, so the scoring passes skip it, while attribution has no length
gate). -/
theorem c8_counterexample :
    extract_emotion_keywords [("喜悦", ["快乐"])] ["快乐", "快乐"] =
        [("喜悦", ["快乐", "快乐"])] ∧
      extract_emotion_keywords [("喜悦", ["好"])] ["好好好好"] =
        [("喜悦", ["好好好好"])] ∧
      exactContribWord [("喜悦", ["好"])] "好好好好" = none ∧
      fuzzyContribsWord [("喜悦", ["好"])] "好好好好" = [] := by
  refine ⟨by decide, by decide, by decide, ?_⟩
  simp +decide [fuzzyContribsWord]

/-- Claim C8 amended: per category, the attribution map records exactly the
tokens related to one of that category's keywords by plain substring
containment in either direction, with no length gate and no length
tolerance (so it can record tokens that triggered neither matcher pass),
in first-touch order; the exact branch appends once per occurrence, so a
token equal to a keyword can appear several times within its category. -/
theorem c8_amended_attribution_membership (L : Lexicon) (words : List String)
    (c w' : String) :
    w' ∈ attrGet (extract_emotion_keywords L words) c ↔
      w' ∈ words ∧ relatedB L c w' = true := by
  unfold extract_emotion_keywords
  rw [mem_attrGet_extractFold]
  simp [attrGet]

end FifthSeason
